import Mathlib

/-!
Verification development for the value-transformation core of an INI-to-TOML
conversion library (`cfg2toml/processing.py`).

The Python source is shallowly embedded: strings are `List Char`, dynamically
typed values are the inductive `V`, TOML document nodes are constructors of
`V` carrying their comment metadata, fallible operations return `Except`, and
the in-place mutation performed by the appliers is modelled by explicit state
passing (functions return the updated container / representation).
-/

set_option maxHeartbeats 1000000

namespace Cfg2Toml

/-- Python strings are modelled as lists of characters. -/
abbrev Str := List Char

/-- The characters Python's `str.strip()` removes (ASCII whitespace;
the rarely used Unicode whitespace code points are not modelled). -/
def pyWs (c : Char) : Bool :=
  c = ' ' ∨ c = '\t' ∨ c = '\n' ∨ c = '\r' ∨ c = '\x0b' ∨ c = '\x0c'

/-- `str.strip()`: remove leading and trailing whitespace. -/
def pyStrip (s : Str) : Str :=
  (s.dropWhile pyWs).rdropWhile pyWs

/-- `str.lstrip(chars)`: remove the leading characters drawn from `chars`. -/
def pyLstripChars (chars : Str) (s : Str) : Str :=
  s.dropWhile (fun c => chars.contains c)

/-- `str.lower()` (ASCII case folding). -/
def pyLower (s : Str) : Str :=
  s.map Char.toLower

/-- `str.isdecimal()` restricted to ASCII decimal digits: nonempty and
all characters are digits. -/
def pyIsDecimal (s : Str) : Bool :=
  !s.isEmpty && s.all Char.isDigit

/-- `int(s)` for a decimal digit string. -/
def strToNat (s : Str) : Nat :=
  s.foldl (fun n c => n * 10 + (c.toNat - '0'.toNat)) 0

/-- Helper for `str.splitlines`: recognized line terminators are
`\n`, `\r` and the pair `\r\n` (the rarer Unicode terminators are not
modelled). -/
def isNL (c : Char) : Bool :=
  c = '\n' ∨ c = '\r'

/-- Worker for `pySplitlines`; `acc` holds the current line reversed. -/
def slAux : Str → Str → List Str
  | [], acc => if acc.isEmpty then [] else [acc.reverse]
  | '\r' :: '\n' :: rest, acc => acc.reverse :: slAux rest []
  | '\r' :: rest, acc => acc.reverse :: slAux rest []
  | '\n' :: rest, acc => acc.reverse :: slAux rest []
  | c :: rest, acc => slAux rest (c :: acc)

/-- `str.splitlines()`: a terminator ends a line, a trailing fragment without
a terminator forms the final line, and the empty string has no lines. -/
def pySplitlines (s : Str) : List Str :=
  slAux s []

/-- Worker for `pySplit`: split on the separator `c :: cs` at every
non-overlapping occurrence, scanning left to right.  The `fuel` argument
makes the recursion structural (each step consumes at least one character,
so `fuel = s.length` always suffices; see `pySplitAux_fuel`). -/
def pySplitAux (c : Char) (cs : Str) : Nat → Str → Str → List Str
  | 0, _, acc => [acc.reverse]
  | _ + 1, [], acc => [acc.reverse]
  | fuel + 1, x :: xs, acc =>
    if x = c ∧ cs.isPrefixOf xs then
      acc.reverse :: pySplitAux c cs fuel (xs.drop cs.length) []
    else
      pySplitAux c cs fuel xs (x :: acc)

/-- `str.split(sep)` for a nonempty separator (Python raises on an empty
separator; the sources never pass one). -/
def pySplit (sep : Str) (s : Str) : List Str :=
  match sep with
  | [] => [s]
  | c :: cs => pySplitAux c cs s.length s []

/-- `str.replace(old, new)` for a nonempty `old` (Python's
`s.replace(old, new) = new.join(s.split(old))`). The sources only call
this with nonempty `old`. -/
def pyReplace (s old new : Str) : Str :=
  match old with
  | [] => s
  | _ => List.intercalate new (pySplit old s)

/-- Worker for `str.split(sep, maxsplit := 1)`: returns the part before the
first occurrence of `c :: cs` and, when the separator occurs, the part
after it. -/
def splitOnceAux (c : Char) (cs : Str) : Str → Str → Str × Option Str
  | [], acc => (acc.reverse, none)
  | x :: xs, acc =>
    if x = c ∧ cs.isPrefixOf xs then
      (acc.reverse, some (xs.drop cs.length))
    else
      splitOnceAux c cs xs (x :: acc)

/-- `str.split(sep, maxsplit := 1)` packaged as a pair, for a nonempty
separator. -/
def splitOnce (sep : Str) (s : Str) : Str × Option Str :=
  match sep with
  | [] => (s, none)
  | c :: cs => splitOnceAux c cs s []

/-- `str.count(".")` specialised to counting one character. -/
def countChar (c : Char) (s : Str) : Nat :=
  s.count c

/-- Default comment prefixes (`CP = "#;"`). -/
def CP : Str := ['#', ';']

/-!
## The value universe

`V` models the dynamically typed Python values the processing core handles:
plain scalars, `None`, plain mutable mappings (the caller-supplied document
containers), and the TOML document nodes produced by materialization.
TOML nodes carry their comment metadata directly:
* `varr multiline elems cmt` is a `tomlkit` array; an element
  `(some v, c)` is a value with an optional inline comment and
  `(none, some c)` is a standalone whole-line comment;
* `vtbl inline elems cmt` is a table (`inline = true` for an inline table);
  an element `(some (k, v), c)` is a key/value pair with an optional comment
  on the value and `(none, some c)` is a standalone whole-line comment;
* `vitem v c` is a scalar item wrapper produced by `create_item`.
Python floats are represented by the source text they were converted from
(the core never computes with them).
-/
inductive V where
  | vint (n : Int)
  | vfloat (txt : Str)
  | vbool (b : Bool)
  | vstr (s : Str)
  | vnone
  | vmap (es : List (Str × V))
  | varr (multiline : Bool) (elems : List (Option V × Option Str)) (cmt : Option Str)
  | vtbl (inline : Bool) (elems : List (Option (Str × V) × Option Str)) (cmt : Option Str)
  | vitem (v : V) (cmt : Option Str)
deriving Repr

/-- An element of a materialized array node. -/
abbrev AElem := Option V × Option Str

/-- An element of a materialized table node. -/
abbrev TElem := Option (Str × V) × Option Str

/-- `noop`: the identity transformation; on an embedded string it returns
the same string value. -/
def noopV (s : Str) : V :=
  V.vstr s

/-- `is_true`: case-insensitive membership in the truthy literal set. -/
def is_true (value : Str) : Bool :=
  let v := pyLower value
  ["true".toList, "1".toList, "yes".toList, "on".toList].contains v

/-- `is_false`: case-insensitive membership in the falsy literal set. -/
def is_false (value : Str) : Bool :=
  let v := pyLower value
  ["false".toList, "0".toList, "no".toList, "off".toList, "none".toList,
    "null".toList, "nil".toList].contains v

/-- `is_float`: lower-case, strip leading sign characters, delete dots and
underscores, then require a decimal remainder with at most one dot in the
original, or the literal `inf`/`nan`. -/
def is_float (value : Str) : Bool :=
  let cleaned :=
    pyReplace (pyReplace (pyLstripChars ['+', '-'] (pyLower value)) ['.'] []) ['_'] []
  (pyIsDecimal cleaned && decide (countChar '.' value ≤ 1))
    || (cleaned = "inf".toList || cleaned = "nan".toList)

/-- `coerce_scalar`: strip, then try integer, float, boolean true, boolean
false, falling back to the (stripped) string. -/
def coerce_scalar (value : Str) : V :=
  let v := pyStrip value
  if pyIsDecimal v then V.vint (strToNat v)
  else if is_float v then V.vfloat v
  else if is_true v then V.vbool true
  else if is_false v then V.vbool false
  else V.vstr v

/-- `kebab_case`: lower-case and replace underscores with hyphens. -/
def kebab_case (fld : Str) : Str :=
  (pyLower fld).map (fun c => if c = '_' then '-' else c)

/-!
## Intermediate representations
-/

/-- `Commented[T]`: a value (or `NOT_GIVEN`, modelled as `none`) plus an
optional comment. -/
structure Commented (α : Type) where
  value : Option α := none
  comment : Option Str := none
deriving Repr

/-- `Commented.comment_only`: the value is `NOT_GIVEN`. -/
def Commented.comment_only (c : Commented α) : Bool :=
  c.value.isNone

/-- `Commented.has_comment`: `bool(self.comment)` — a present *nonempty*
comment (Python's truthiness makes an empty comment count as no comment). -/
def Commented.has_comment (c : Commented α) : Bool :=
  match c.comment with
  | some s => !s.isEmpty
  | none => false

/-- `Commented.value_or`. -/
def Commented.value_or (c : Commented α) (fallback : α) : α :=
  c.value.getD fallback

/-- `CommentedList`: one `Commented` list of values per physical line, plus
the workaround `comment` attribute mutated by `as_toml_obj`. -/
structure CommentedList where
  data : List (Commented (List V))
  comment : Option Str := none
deriving Repr

/-- `CommentedKV`: one `Commented` list of key/value pairs per physical
line, plus the workaround `comment` attribute mutated by `as_toml_obj`. -/
structure CommentedKV where
  data : List (Commented (List (Str × V)))
  comment : Option Str := none
deriving Repr

/-- `_add_comment_array_last_item`: attach a comment to the last element of
the array built so far (callers guarantee the array is nonempty). -/
def attachLastA : List AElem → Str → List AElem
  | [], _ => []
  | [(v, _)], c => [(v, some c)]
  | e :: e2 :: rest, c => e :: attachLastA (e2 :: rest) c

/-- The loop body of `CommentedList.as_toml_obj`. Returns the accumulated
array elements and, when the single-entry early return fired, the comment
that was attached to the whole node and written back to `self.comment`. -/
def clLoop (multiline : Bool) : List (Commented (List V)) → List AElem →
    List AElem × Option Str
  | [], acc => (acc, none)
  | e :: rest, acc =>
    let values := e.value_or []
    let acc2 := acc ++ values.map (fun v => ((some v : Option V), (none : Option Str)))
    if ¬ e.has_comment then clLoop multiline rest acc2
    else if ¬ multiline then (acc2, e.comment)
    else if ¬ values.isEmpty then clLoop multiline rest (attachLastA acc2 (e.comment.getD []))
    else clLoop multiline rest (acc2 ++ [(none, e.comment)])

/-- `CommentedList.as_toml_obj`: materialize into an array node.  The Python
method mutates `self.comment` in the single-entry commented case; the model
returns the node together with the updated representation. -/
def CommentedList.as_toml_obj (self : CommentedList) : V × CommentedList :=
  let multiline := self.data.length > 1
  let (elems, early) := clLoop multiline self.data []
  (V.varr multiline elems early,
    match early with
    | some c => { self with comment := some c }
    | none => self)

/-- `out[k] = v` on a table node's element list: replace the item stored
under an existing key in place (dropping its old comment, as replacing a
`tomlkit` item does), otherwise append a fresh pair. -/
def tblSet : List TElem → Str → V → List TElem
  | [], k, v => [(some (k, v), none)]
  | (some (k2, w), c) :: rest, k, v =>
    if k2 = k then (some (k, v), none) :: rest
    else (some (k2, w), c) :: tblSet rest k v
  | (none, c) :: rest, k, v => (none, c) :: tblSet rest k v

/-- `out[k].comment(cmt)`: attach a comment to the item stored under `k`. -/
def tblAttach : List TElem → Str → Str → List TElem
  | [], _, _ => []
  | (some (k2, w), c) :: rest, k, cmt =>
    if k2 = k then (some (k2, w), some cmt) :: rest
    else (some (k2, w), c) :: tblAttach rest k cmt
  | (none, c) :: rest, k, cmt => (none, c) :: tblAttach rest k cmt

/-- The per-entry assignment loop of `CommentedKV.as_toml_obj`: fold
`out[k] = v` over the entry's pairs, tracking the key assigned last.
(The Python generator also filters with `if v`, which only drops the
`()` sentinel substituted for an absent value; genuine pairs are nonempty
tuples and always pass.) -/
def kvFoldPairs (acc : List TElem) (pairs : List (Str × V)) :
    List TElem × Option Str :=
  pairs.foldl (fun st p => (tblSet st.1 p.1 p.2, some p.1)) (acc, none)

/-- The loop body of `CommentedKV.as_toml_obj`.  Mirrors `clLoop`: the
second component is the comment set by the single-entry early return.
`if k:` is Python truthiness — `None` and the empty key both fail it. -/
def kvLoop (multiline : Bool) : List (Commented (List (Str × V))) → List TElem →
    List TElem × Option Str
  | [], acc => (acc, none)
  | e :: rest, acc =>
    let st := kvFoldPairs acc (e.value_or [])
    if ¬ e.has_comment then kvLoop multiline rest st.1
    else if ¬ multiline then (st.1, e.comment)
    else if (st.2.getD []).isEmpty then kvLoop multiline rest (st.1 ++ [(none, e.comment)])
    else kvLoop multiline rest (tblAttach st.1 (st.2.getD []) (e.comment.getD []))

/-- `CommentedKV.as_toml_obj`: materialize into a table (multiline) or
inline table (single line) node, returning the node and the updated
representation (`self.comment` is mutated by the single-entry case). -/
def CommentedKV.as_toml_obj (self : CommentedKV) : V × CommentedKV :=
  let multiline := self.data.length > 1
  let (elems, early) := kvLoop multiline self.data []
  (V.vtbl (!multiline) elems early,
    match early with
    | some c => { self with comment := some c }
    | none => self)

/-!
## Splitters
-/

/-- `_split_in_2(v, sep)`: `v.split(sep, maxsplit=1)` as first part plus
optional second part. The callers pass a single prefix character. -/
def _split_in_2 (v : Str) (sep : Char) : Str × Option Str :=
  splitOnce [sep] v

/-- `_strip_comment(msg, prefixes)`: `None` (and the falsy empty string)
propagate as `none`; otherwise strip, remove leading prefix characters,
strip again. -/
def _strip_comment (msg : Option Str) (prefixes : Str) : Option Str :=
  match msg with
  | none => none
  | some m =>
    if m.isEmpty then none
    else some (pyStrip (pyLstripChars prefixes (pyStrip m)))

/-- `split_comment(value, coerce_fn, comment_prefixes)` on a string input
(the defensive non-string passthrough is outside the embedded domain).
Polymorphic in the coercion result, as in the Python overloads. -/
def split_comment (value : Str) (coerce_fn : Str → α) (comment_prefixes : Str) :
    Commented α :=
  let v := pyStrip value
  let pfxs := comment_prefixes.filter (fun p => v.contains p)
  if pfxs.isEmpty ∨ (pySplitlines v).length > 1 then
    { value := some (coerce_fn v) }
  else if comment_prefixes.any (fun p => v.head? = some p) then
    { value := none, comment := _strip_comment (some v) comment_prefixes }
  else
    match pfxs with
    | [] => { value := some (coerce_fn v) }
    | pfx :: _ =>
      let parts := _split_in_2 v pfx
      { value := some (coerce_fn (pyStrip parts.1)),
        comment := _strip_comment parts.2 comment_prefixes }

/-- `split_scalar`. -/
def split_scalar (value : Str) (comment_prefixes : Str := CP) : Commented V :=
  split_comment value coerce_scalar comment_prefixes

/-- The per-line element splitter `_split` closed over by `split_list`:
split on `sep`, drop falsy (empty) pieces, strip and coerce the rest. -/
def listLineSplit (sep : Str) (coerce_fn : Str → V) (line : Str) : List V :=
  ((pySplit sep line).filter (fun v => !v.isEmpty)).map (fun v => coerce_fn (pyStrip v))

/-- `split_list(value, sep, coerce_fn, subsplit_dangling, comment_prefixes)`. -/
def split_list (value : Str) (sep : Str) (coerce_fn : Str → V)
    (subsplit_dangling : Bool) (comment_prefixes : Str) : CommentedList :=
  let cp := pyReplace comment_prefixes sep []
  let values := pySplitlines (pyStrip value)
  let sep2 := if ¬ subsplit_dangling ∧ values.length > 1 then sep ++ ['\n'] else sep
  { data := values.map (fun v => split_comment v (listLineSplit sep2 coerce_fn) cp) }

/-- The per-line pair splitter `_split_kv` closed over by `split_kv_pairs`:
strip the line, split on `pair_sep`, keep the items containing `key_sep`,
split each once at `key_sep`, strip the key, strip and coerce the value. -/
def kvLineSplit (key_sep pair_sep : Str) (coerce_fn : Str → V) (line : Str) :
    List (Str × V) :=
  ((pySplit pair_sep (pyStrip line)).filter (fun itm => decide (List.IsInfix key_sep itm))).map
    (fun itm =>
      let parts := splitOnce key_sep itm
      (pyStrip parts.1, coerce_fn (pyStrip (parts.2.getD []))))

/-- `split_kv_pairs(value, key_sep, coerce_fn, pair_sep, subsplit_dangling,
comment_prefixes)`. -/
def split_kv_pairs (value : Str) (key_sep : Str) (coerce_fn : Str → V)
    (pair_sep : Str) (subsplit_dangling : Bool) (comment_prefixes : Str) :
    CommentedKV :=
  let cp := pyReplace (pyReplace comment_prefixes key_sep []) pair_sep []
  let values := pySplitlines (pyStrip value)
  let psep := if ¬ subsplit_dangling ∧ values.length > 1 then pair_sep ++ ['\n'] else pair_sep
  { data := values.map (fun v => split_comment v (kvLineSplit key_sep psep coerce_fn) cp) }

/-!
## Appliers and container glue
-/

/-- `create_item(value, comment)`: wrap a value as a document item, attaching
the comment when one is given. -/
def create_item (value : V) (cmt : Option Str) : V :=
  V.vitem value cmt

/-- `Commented.as_toml_obj(default_value="")`. -/
def Commented.as_toml_obj (c : Commented V) : V :=
  create_item (c.value_or (V.vstr [])) c.comment

/-- The result of a transformation (`fn`'s return value handed to
`_add_to_container`): either a plain value without an `as_toml_obj`
capability, or one of the intermediate representations that expose it. -/
inductive PVal where
  | plain (v : V)
  | cmted (c : Commented V)
  | clist (l : CommentedList)
  | ckv (t : CommentedKV)

/-- First-key association lookup on a plain mapping. -/
def lookupKey : List (Str × V) → Str → Option V
  | [], _ => none
  | (k2, v) :: rest, k => if k2 = k then some v else lookupKey rest k

/-- Python `container[field] = value` on a plain mapping: replace in place,
else append. -/
def setKey : List (Str × V) → Str → V → List (Str × V)
  | [], k, v => [(k, v)]
  | (k2, w) :: rest, k, v =>
    if k2 = k then (k, v) :: rest else (k2, w) :: setKey rest k v

/-- Item lookup among a table node's elements. -/
def tblLookup : List TElem → Str → Option V
  | [], _ => none
  | (some (k2, v), _) :: rest, k => if k2 = k then some v else tblLookup rest k
  | (none, _) :: rest, k => tblLookup rest k

/-- `isinstance(value, MutableMapping)`: plain mappings and (inline) table
nodes are mutable mappings; everything else is not. -/
def isMapping : V → Bool
  | .vmap _ => true
  | .vtbl _ _ _ => true
  | _ => false

/-- Zero test for the textual representation of an embedded float (used only
for truthiness): the cleaned form is nonempty and all zeros. -/
def floatZero (s : Str) : Bool :=
  let cleaned :=
    pyReplace (pyReplace (pyLstripChars ['+', '-'] (pyLower s)) ['.'] []) ['_'] []
  !cleaned.isEmpty && cleaned.all (fun c => c = '0')

/-- Python truthiness on the value universe. -/
def truthy : V → Bool
  | .vint n => n ≠ 0
  | .vfloat s => !floatZero s
  | .vbool b => b
  | .vstr s => !s.isEmpty
  | .vnone => false
  | .vmap es => !es.isEmpty
  | .varr _ es _ => !es.isEmpty
  | .vtbl _ es _ => !es.isEmpty
  | .vitem v _ => truthy v

/-- `container[field]` read on a mutable mapping (plain or table node);
`none` models the `KeyError`/`TypeError` raised otherwise. -/
def mapLookup : V → Str → Option V
  | .vmap es, k => lookupKey es k
  | .vtbl _ es _, k => tblLookup es k
  | _, _ => none

/-- `container[field] = v` write on a mutable mapping; other values are
returned unchanged (the appliers never write to them). -/
def mapSet : V → Str → V → V
  | .vmap es, k, v => .vmap (setKey es k v)
  | .vtbl i es c, k, v => .vtbl i (tblSet es k v) c
  | m, _, _ => m

/-- `value.__class__.__name__` for the warning message. -/
def typeName : V → Str
  | .vint _ => "int".toList
  | .vfloat _ => "float".toList
  | .vbool _ => "bool".toList
  | .vstr _ => "str".toList
  | .vnone => "NoneType".toList
  | .vmap _ => "dict".toList
  | .varr _ _ _ => "Array".toList
  | .vtbl i _ _ => if i then "InlineTable".toList else "Table".toList
  | .vitem _ _ => "Item".toList

/-- Materialize a transformation result, if it exposes `as_toml_obj`
(`hasattr(value, "as_toml_obj")`).  Returns the document node together with
the value of the representation's `comment` attribute *after* the call
(which `as_toml_obj` may have mutated). -/
def PVal.materialize : PVal → Option (V × Option Str)
  | .plain _ => none
  | .cmted c => some (c.as_toml_obj, c.comment)
  | .clist l =>
    let r := l.as_toml_obj
    some (r.1, r.2.comment)
  | .ckv t =>
    let r := t.as_toml_obj
    some (r.1, r.2.comment)

/-- `obj.comment(cmt)` on a document node; values without a comment slot
(`hasattr(obj, "comment")` false) are unchanged. -/
def setNodeComment : V → Str → V
  | .varr m es _, c => .varr m es (some c)
  | .vtbl i es _, c => .vtbl i es (some c)
  | .vitem v _, c => .vitem v (some c)
  | v, _ => v

/-- `_add_to_container(container, field, value)`: plain values are assigned
directly; materializable values are materialized, assigned, and — when the
representation's (possibly just mutated) `comment` attribute is not `None`
and the node supports comments — the comment is re-attached to the node. -/
def _add_to_container (container : V) (fld : Str) (value : PVal) : V :=
  match value.materialize with
  | none =>
    match value with
    | .plain v => mapSet container fld v
    | _ => container
  | some (obj, cmtAttr) =>
    let node :=
      match cmtAttr with
      | some cm => setNodeComment obj cm
      | none => obj
    mapSet container fld node

/-- A logged warning: the offending value and its runtime type name (the
Python message interpolates both into
`"Impossible to transform: {value} <{type}>"`). -/
abbrev Warning := V × Str

/-- `apply(container, field, fn)`: read `container[field]` (outside the
handler — a missing field propagates as an error), run `fn`; a failing
transformation is swallowed, logging exactly one warning and returning the
container unchanged; a successful one is written back through
`_add_to_container`. -/
def apply (container : V) (fld : Str) (fn : V → Except Unit PVal) :
    Except Unit (V × List Warning) :=
  match mapLookup container fld with
  | none => .error ()
  | some value =>
    match fn value with
    | .error _ => .ok (container, [(value, typeName value)])
    | .ok processed => .ok (_add_to_container container fld processed, [])

/-- Modelled from the spec: `get_nested` lives in the repository's `access`
module, which is not among the reviewed sources.  Per the spec, the path
segments are resolved as nested-mapping lookups; an absent segment yields
the supplied default (`none`, modelling Python's `None`), and resolving a
segment against a value that is not a mapping is a structural error. -/
def get_nested : V → List Str → Except Unit (Option V)
  | v, [] => .ok (some v)
  | v, k :: rest =>
    if ¬ isMapping v then .error ()
    else
      match mapLookup v k with
      | none => .ok none
      | some w => get_nested w rest

/-- Write back a value at a nested path whose every segment resolved (used
to model the in-place mutation of the nested mapping `apply` received). -/
def setPath : V → List Str → V → V
  | _, [], newv => newv
  | m, k :: rest, newv =>
    mapSet m k (setPath ((mapLookup m k).getD V.vnone) rest newv)

/-- `apply_nested(container, path, fn)`: `*parent, last = path` (an empty
path fails to unpack), resolve the parent path, no-op when the resolved
parent is falsy (`if not nested`), raise when it is not a mutable mapping,
and otherwise delegate to `apply` when the last segment is present. -/
def apply_nested (container : V) (path : List Str) (fn : V → Except Unit PVal) :
    Except Unit (V × List Warning) :=
  match path.getLast? with
  | none => .error ()
  | some last =>
    let parent := path.dropLast
    match get_nested container parent with
    | .error _ => .error ()
    | .ok nd =>
      let nested := nd.getD V.vnone
      if ¬ truthy nested then .ok (container, [])
      else if ¬ isMapping nested then .error ()
      else if (mapLookup nested last).isSome then
        match apply nested last fn with
        | .error _ => .error ()
        | .ok (nested2, ws) => .ok (setPath container parent nested2, ws)
      else .ok (container, [])

/-!
## Projections and specification-side definitions

The `claim…` definitions below follow the wording of the specification (not
the code); the theorems compare them against the embedded source functions.
-/

/-- The comment attached to a document node (`none` when the node has no
comment slot or no comment). -/
def nodeComment : V → Option Str
  | .varr _ _ c => c
  | .vtbl _ _ c => c
  | .vitem _ c => c
  | _ => none

/-- The element list of an array node. -/
def varrElems : V → List AElem
  | .varr _ es _ => es
  | _ => []

/-- The multiline flag of an array node. -/
def varrMultiline : V → Bool
  | .varr m _ _ => m
  | _ => false

/-- The element list of a table node. -/
def vtblElems : V → List TElem
  | .vtbl _ es _ => es
  | _ => []

/-- Spec-side `split_comment` on a (stripped) line, following the claim's
rules in order: a line starting with a prefix character is a whole-line
comment; otherwise split at the first occurrence of the first occurring
prefix character; with no prefix character, or a multi-line input, there is
no comment. -/
def claimSplitComment (value : Str) (coerce_fn : Str → α) (comment_prefixes : Str) :
    Commented α :=
  let v := pyStrip value
  if (pySplitlines v).length > 1 then
    { value := some (coerce_fn v) }
  else if comment_prefixes.any (fun p => v.head? = some p) then
    { value := none, comment := _strip_comment (some v) comment_prefixes }
  else
    match comment_prefixes.filter (fun p => v.contains p) with
    | [] => { value := some (coerce_fn v) }
    | pfx :: _ =>
      let parts := _split_in_2 v pfx
      { value := some (coerce_fn (pyStrip parts.1)),
        comment := _strip_comment parts.2 comment_prefixes }

/-- Spec-side per-line element list for `split_list` as the claim words it:
split on `sep`, trim each piece, (then) drop empty pieces, coerce the rest. -/
def claimListPieces (sep line : Str) (coerce_fn : Str → V) : List V :=
  (((pySplit sep line).map pyStrip).filter (fun p => !p.isEmpty)).map coerce_fn

/-- Spec-side description of one multiline-array entry's contribution: its
elements in order; a comment is attached to the entry's last element when it
contributed at least one, and otherwise becomes a standalone whole-line
comment. -/
def entryElemsClaim (e : Commented (List V)) : List AElem :=
  let vals := (e.value_or []).map (fun v => ((some v : Option V), (none : Option Str)))
  if e.has_comment then
    if (e.value_or []).isEmpty then vals ++ [(none, e.comment)]
    else attachLastA vals (e.comment.getD [])
  else vals

/-- The value of the last pair carrying key `k` (last-write-wins lookup in a
flat pair list; later pairs take precedence). -/
def lastWrite : List (Str × V) → Str → Option V
  | [], _ => none
  | p :: ps, k =>
    match lastWrite ps k with
    | some v => some v
    | none => if p.1 = k then some p.2 else none

/-- The last key set by an entry's pair list. -/
def lastKeySet (pairs : List (Str × V)) : Option Str :=
  pairs.getLast?.map Prod.fst

/-- Spec-side (amended) description of one multiline-table entry's
processing: assign all pairs in order; the comment is attached to the item
under the last key set by the entry when that key is nonempty, and is
otherwise appended as a standalone whole-line comment. -/
def claimKvCommentStep (e : Commented (List (Str × V))) (acc : List TElem) :
    List TElem :=
  let assigned := (e.value_or []).foldl (fun es p => tblSet es p.1 p.2) acc
  match lastKeySet (e.value_or []) with
  | some k =>
    if k.isEmpty then assigned ++ [(none, e.comment)]
    else tblAttach assigned k (e.comment.getD [])
  | none => assigned ++ [(none, e.comment)]

/-!
## Helper lemmas
-/

theorem lookupKey_setKey (es : List (Str × V)) (k : Str) (v : V) :
    lookupKey (setKey es k v) k = some v := by
  induction es with
  | nil => simp [setKey, lookupKey]
  | cons e rest ih =>
    obtain ⟨k2, w⟩ := e
    by_cases h : k2 = k
    · simp [setKey, lookupKey, h]
    · simp [setKey, lookupKey, h, ih]

/-!
## C1, C9 — the applier's fail-soft containment and its boundary
-/

/-- C1: for a container whose field `fld` holds `v`, a transformation that
fails on `v` is contained: `apply` logs exactly one warning naming the
value and its runtime type, returns the container itself, and the value
under `fld` is unchanged. -/
theorem apply_failing_transformation (container : V) (fld : Str)
    (fn : V → Except Unit PVal) (v : V)
    (hget : mapLookup container fld = some v) (hfn : fn v = .error ()) :
    apply container fld fn = .ok (container, [(v, typeName v)]) := by
  simp [apply, hget, hfn]

theorem apply_failing_transformation_witness :
    apply (V.vmap [("a".toList, V.vstr "x".toList)]) "a".toList (fun _ => .error ())
      = .ok (V.vmap [("a".toList, V.vstr "x".toList)],
          [(V.vstr "x".toList, "str".toList)]) :=
  apply_failing_transformation _ _ _ _ rfl rfl

/-- C9: when the field is absent the lookup `container[field]` happens
outside the fail-soft handler, so `apply` raises instead of returning the
container unchanged. -/
theorem apply_missing_field (container : V) (fld : Str) (fn : V → Except Unit PVal)
    (hget : mapLookup container fld = none) :
    apply container fld fn = .error () := by
  simp [apply, hget]

theorem apply_missing_field_witness :
    apply (V.vmap []) "a".toList (fun v => .ok (.plain v)) = .error () :=
  apply_missing_field _ _ _ rfl

/-!
## C8 — `coerce_scalar` conversion order
-/

/-- C8 (amended): `coerce_scalar` strips its input, then tries integer,
float, boolean-true and boolean-false conversion in that order on the
stripped string, and when all fail returns the *stripped* string. -/
theorem coerce_scalar_order (s : Str) :
    (pyIsDecimal (pyStrip s) = true →
      coerce_scalar s = V.vint (strToNat (pyStrip s)))
  ∧ (pyIsDecimal (pyStrip s) = false → is_float (pyStrip s) = true →
      coerce_scalar s = V.vfloat (pyStrip s))
  ∧ (pyIsDecimal (pyStrip s) = false → is_float (pyStrip s) = false →
      is_true (pyStrip s) = true → coerce_scalar s = V.vbool true)
  ∧ (pyIsDecimal (pyStrip s) = false → is_float (pyStrip s) = false →
      is_true (pyStrip s) = false → is_false (pyStrip s) = true →
      coerce_scalar s = V.vbool false)
  ∧ (pyIsDecimal (pyStrip s) = false → is_float (pyStrip s) = false →
      is_true (pyStrip s) = false → is_false (pyStrip s) = false →
      coerce_scalar s = V.vstr (pyStrip s)) := by
  refine ⟨?_, ?_, ?_, ?_, ?_⟩ <;> intros <;> simp [coerce_scalar, *]

theorem coerce_scalar_order_witness :
    coerce_scalar "42".toList = V.vint (strToNat (pyStrip "42".toList))
    ∧ coerce_scalar "hello".toList = V.vstr (pyStrip "hello".toList) :=
  ⟨(coerce_scalar_order "42".toList).1 (by decide),
   (coerce_scalar_order "hello".toList).2.2.2.2 (by decide) (by decide)
     (by decide) (by decide)⟩

/-- C8 counterexample: on `" hello "` every conversion fails and
`coerce_scalar` returns the stripped string `"hello"`, not the original
string unchanged. -/
theorem coerce_scalar_strips_counterexample :
    coerce_scalar " hello ".toList = V.vstr "hello".toList
    ∧ "hello".toList ≠ " hello ".toList :=
  ⟨rfl, by decide⟩

/-!
## C2 — `apply_nested` on absent and non-mapping parents
-/

/-- C2 (amended): with `path = parent ++ [last]`, when the resolved parent
is falsy (in particular when an intermediate segment is absent, making the
nested lookup yield the default `None`) `apply_nested` returns the container
unchanged without raising; when the resolved parent is truthy but not a
mutable mapping it raises the invalid-path error. -/
theorem apply_nested_parent_checks (container : V) (parent : List Str) (last : Str)
    (fn : V → Except Unit PVal) :
    (∀ nd, get_nested container parent = .ok nd → truthy (nd.getD V.vnone) = false →
      apply_nested container (parent ++ [last]) fn = .ok (container, []))
  ∧ (∀ x, get_nested container parent = .ok (some x) → truthy x = true →
      isMapping x = false →
      apply_nested container (parent ++ [last]) fn = .error ()) := by
  constructor
  · intro nd hg ht
    simp [apply_nested, List.getLast?_concat, List.dropLast_concat, hg, ht]
  · intro x hg ht hm
    simp [apply_nested, List.getLast?_concat, List.dropLast_concat, hg, ht, hm]

theorem apply_nested_parent_checks_witness :
    apply_nested (V.vmap [("a".toList, V.vmap [])]) ["a".toList, "b".toList]
        (fun v => .ok (.plain v))
      = .ok (V.vmap [("a".toList, V.vmap [])], [])
    ∧ apply_nested (V.vmap [("a".toList, V.vint 5)]) ["a".toList, "b".toList]
        (fun v => .ok (.plain v))
      = .error () :=
  ⟨(apply_nested_parent_checks _ ["a".toList] "b".toList _).1 (some (V.vmap []))
      rfl rfl,
   (apply_nested_parent_checks _ ["a".toList] "b".toList _).2 (V.vint 5)
      rfl rfl rfl⟩

/-- C2 counterexample: in `{"a": 0}` with path `["a", "b"]` every
intermediate segment resolves, the resolved parent `0` is not a mapping,
yet `apply_nested` returns the container unchanged instead of raising —
the falsiness guard `if not nested` fires before the mapping check. -/
theorem apply_nested_falsy_non_mapping_no_raise :
    apply_nested (V.vmap [("a".toList, V.vint 0)]) ["a".toList, "b".toList]
        (fun v => .ok (.plain v))
      = .ok (V.vmap [("a".toList, V.vint 0)], [])
    ∧ isMapping (V.vint 0) = false
    ∧ lookupKey [("a".toList, V.vint 0)] "a".toList = some (V.vint 0) :=
  ⟨rfl, rfl, rfl⟩

/-!
## C3 — `split_comment` rule order
-/

theorem exists_mem_of_any_head (cp w : Str)
    (h : cp.any (fun p => decide (w.head? = some p)) = true) :
    ∃ p ∈ cp, p ∈ w := by
  rw [List.any_eq_true] at h
  obtain ⟨p, hp, hh⟩ := h
  have hh2 : w.head? = some p := of_decide_eq_true hh
  refine ⟨p, hp, ?_⟩
  cases w with
  | nil => simp at hh2
  | cons a t =>
    simp only [List.head?_cons, Option.some.injEq] at hh2
    subst hh2
    exact List.mem_cons_self _ _

/-- C3: `split_comment` implements exactly the claimed first-matching-rule
order — whole-line comment when the stripped line starts with a prefix
character, otherwise split at the first occurrence of the first occurring
prefix character, with a no-comment fallback when no prefix character
occurs or the input spans several physical lines. -/
theorem split_comment_eq_claim (α : Type) (cf : Str → α) (cp value : Str) :
    split_comment value cf cp = claimSplitComment value cf cp := by
  unfold split_comment claimSplitComment
  by_cases hM : (pySplitlines (pyStrip value)).length > 1
  · simp [hM]
  · by_cases hS : cp.any (fun p => decide ((pyStrip value).head? = some p)) = true
    · have hex := exists_mem_of_any_head cp (pyStrip value) hS
      simp only [hM, hS, if_true, if_false]
      simp [hM, hS]
      exact hex
    · rcases hfe : cp.filter (fun p => decide (p ∈ pyStrip value)) with _ | ⟨pfx, rest⟩
      · have hall : ∀ a ∈ cp, a ∉ pyStrip value := by
          intro a ha
          have := List.filter_eq_nil_iff.mp hfe a ha
          simpa using this
        simp [hM, hS, hfe, hall]
      · have hnall : ¬ ∀ a ∈ cp, a ∉ pyStrip value := by
          intro hall
          have hm : pfx ∈ cp.filter (fun p => decide (p ∈ pyStrip value)) := by
            rw [hfe]
            exact List.mem_cons_self _ _
          have := List.mem_filter.mp hm
          exact hall pfx this.1 (by simpa using this.2)
        simp [hM, hS, hfe, hnall]

/-!
## C4 — `CommentedList.as_toml_obj` comment placement
-/

theorem attachLastA_cons (e : AElem) (rest : List AElem) (c : Str)
    (h : rest ≠ []) :
    attachLastA (e :: rest) c = e :: attachLastA rest c := by
  cases rest with
  | nil => exact absurd rfl h
  | cons f rest2 => rfl

theorem attachLastA_append (a b : List AElem) (c : Str) (hb : b ≠ []) :
    attachLastA (a ++ b) c = a ++ attachLastA b c := by
  induction a with
  | nil => rfl
  | cons x xs ih =>
    have hxb : xs ++ b ≠ [] := by
      simp [List.append_eq_nil]
      intro _ hb2
      exact hb hb2
    rw [List.cons_append, attachLastA_cons x (xs ++ b) c hxb, ih]
    simp

theorem clLoop_true (entries : List (Commented (List V))) (acc : List AElem) :
    clLoop true entries acc = (acc ++ entries.flatMap entryElemsClaim, none) := by
  induction entries generalizing acc with
  | nil => simp [clLoop]
  | cons e rest ih =>
    rw [clLoop]
    by_cases hc : e.has_comment = true
    · by_cases hv : (e.value_or []).isEmpty = true
      · have hv2 : (e.value_or []) = [] := by simpa [List.isEmpty_iff] using hv
        simp [hc, hv2, ih, entryElemsClaim, List.append_assoc]
      · have hv2 : (e.value_or []) ≠ [] := by simpa [List.isEmpty_iff] using hv
        have hmap : (e.value_or []).map
            (fun v => ((some v : Option V), (none : Option Str))) ≠ [] := by
          simpa using hv2
        simp [hc, hv, ih, attachLastA_append _ _ _ hmap, entryElemsClaim,
          List.append_assoc]
    · simp [hc, ih, entryElemsClaim, List.append_assoc]

/-- C4: materialization of a `CommentedList` is multiline exactly when there
is more than one entry; a single commented entry attaches its comment to the
whole array node; in the multiline case each entry contributes its elements,
attaching its comment to the last one when it contributed any and appending
a standalone whole-line comment otherwise; and the value `"x # c1\ny"`
materializes with `c1` on the element `x`, not on `y` nor on the array. -/
theorem commented_list_materialization (l : CommentedList) :
    varrMultiline l.as_toml_obj.1 = decide (l.data.length > 1)
  ∧ (l.data.length > 1 →
      l.as_toml_obj.1 = V.varr true (l.data.flatMap entryElemsClaim) none)
  ∧ (∀ e, l.data = [e] → e.has_comment = true →
      nodeComment l.as_toml_obj.1 = e.comment)
  ∧ (split_list "x # c1\ny".toList ",".toList noopV true CP).as_toml_obj.1
      = V.varr true [(some (V.vstr "x".toList), some "c1".toList),
          (some (V.vstr "y".toList), none)] none := by
  refine ⟨?_, ?_, ?_, ?_⟩
  · by_cases h : l.data.length > 1
    · simp [CommentedList.as_toml_obj, varrMultiline, h, clLoop_true]
    · rcases l with ⟨data, cmt⟩
      simp only [List.length_eq_zero] at h
      rcases data with _ | ⟨e, rest⟩
      · simp [CommentedList.as_toml_obj, varrMultiline, clLoop]
      · rcases rest with _ | ⟨f, rest2⟩
        · by_cases hc : e.has_comment = true <;>
            simp [CommentedList.as_toml_obj, varrMultiline, clLoop, hc]
        · simp at h
  · intro h
    simp [CommentedList.as_toml_obj, h, clLoop_true]
  · intro e hdata hc
    simp [CommentedList.as_toml_obj, hdata, clLoop, hc, nodeComment]
  · rfl

theorem commented_list_materialization_witness :
    ((CommentedList.mk [⟨some [V.vint 1], none⟩, ⟨some [V.vint 2], some "c".toList⟩]
        none).as_toml_obj.1
      = V.varr true
          ((CommentedList.mk [⟨some ([V.vint 1]), none⟩,
              ⟨some [V.vint 2], some "c".toList⟩] none).data.flatMap entryElemsClaim)
          none)
    ∧ nodeComment ((CommentedList.mk [⟨some [V.vint 1], some "c".toList⟩]
        none).as_toml_obj.1)
      = (⟨some [V.vint 1], some "c".toList⟩ : Commented (List V)).comment :=
  ⟨(commented_list_materialization _).2.1 (by decide),
   (commented_list_materialization _).2.2.1 _ rfl rfl⟩

/-!
## C5, C7 — `split_list` per-line structure
-/

theorem split_comment_plain_line (v : Str) (cf : Str → α) (cp : Str)
    (h : ∀ p ∈ cp, p ∉ pyStrip v) :
    split_comment v cf cp = { value := some (cf (pyStrip v)), comment := none } := by
  unfold split_comment
  have hfe : cp.filter (fun p => (pyStrip v).contains p) = [] := by
    refine List.filter_eq_nil_iff.mpr ?_
    intro a ha
    simpa using h a ha
  simp [hfe]
  intro x hx hmem
  exact absurd hmem (h x hx)

/-- C5 (amended): `split_list` produces exactly one entry per physical line
of the stripped input; for a line free of comment-prefix characters (after
the separator is removed from the prefix set), with `subsplit_dangling`
enabled the entry's value is obtained by stripping the line, splitting on
`sep`, dropping the pieces that are empty *before* trimming, then trimming
and coercing each remaining piece. -/
theorem split_list_per_line (value sep : Str) (cf : Str → V) (cp : Str) :
    (split_list value sep cf true cp).data.length
      = (pySplitlines (pyStrip value)).length
  ∧ ∀ i ln, (pySplitlines (pyStrip value)).get? i = some ln →
      (∀ p ∈ pyReplace cp sep [], p ∉ pyStrip ln) →
      (split_list value sep cf true cp).data.get? i
        = some (Commented.mk
            (some (((pySplit sep (pyStrip ln)).filter
              (fun q => !q.isEmpty)).map (fun q => cf (pyStrip q))))
            none) := by
  constructor
  · simp [split_list]
  · intro i ln hln hnp
    have hmap : (split_list value sep cf true cp).data.get? i
        = ((pySplitlines (pyStrip value)).get? i).map
            (fun v => split_comment v (listLineSplit sep cf) (pyReplace cp sep [])) := by
      simp [split_list, List.get?_map]
    rw [hmap, hln]
    simp only [Option.map]
    rw [split_comment_plain_line _ _ _ hnp]
    rfl

theorem split_list_per_line_witness :
    (split_list "a, b ,c".toList ",".toList noopV true CP).data.length
      = (pySplitlines (pyStrip "a, b ,c".toList)).length
    ∧ (split_list "a, b ,c".toList ",".toList noopV true CP).data.get? 0
      = some (Commented.mk
          (some (((pySplit ",".toList (pyStrip "a, b ,c".toList)).filter
            (fun q => !q.isEmpty)).map (fun q => noopV (pyStrip q))))
          none) :=
  ⟨(split_list_per_line _ _ _ _).1,
   (split_list_per_line _ _ _ _).2 0 "a, b ,c".toList rfl (by decide)⟩

/-- C5 counterexample: on `"a, ,b"` the code keeps the whitespace-only piece
(the emptiness filter runs *before* trimming), so the entry's value contains
an empty string, while the claimed trim-then-drop procedure would drop it. -/
theorem split_list_keeps_blank_piece :
    (split_list "a, ,b".toList ",".toList noopV true CP).data
      = [Commented.mk
          (some [V.vstr "a".toList, V.vstr [], V.vstr "b".toList]) none]
    ∧ claimListPieces ",".toList "a, ,b".toList noopV
      = [V.vstr "a".toList, V.vstr "b".toList]
    ∧ [V.vstr "a".toList, V.vstr [], V.vstr "b".toList]
      ≠ [V.vstr "a".toList, V.vstr "b".toList] :=
  ⟨rfl, rfl, fun h => absurd (congrArg List.length h) (by decide)⟩

theorem slAux_no_newline (s acc : Str) :
    (∀ c ∈ acc, isNL c = false) → ∀ ln ∈ slAux s acc, ∀ c ∈ ln, isNL c = false := by
  induction s, acc using slAux.induct with
  | case1 acc hempty =>
    intro hacc ln hln
    simp [slAux, hempty] at hln
  | case2 acc hempty =>
    intro hacc ln hln c hc
    simp [slAux, hempty] at hln
    subst hln
    exact hacc c (by simpa using hc)
  | case3 rest acc ih =>
    intro hacc ln hln c hc
    simp only [slAux] at hln
    rcases List.mem_cons.mp hln with h | h
    · subst h
      exact hacc c (by simpa using hc)
    · exact ih (by simp) ln h c hc
  | case4 rest acc hne ih =>
    intro hacc ln hln c hc
    rcases rest with _ | ⟨y, rest2⟩
    · simp only [slAux] at hln
      rcases List.mem_cons.mp hln with h | h
      · subst h
        exact hacc c (by simpa using hc)
      · exact ih (by simp) ln h c hc
    · have hy : y ≠ '\n' := fun h => hne rest2 (by rw [h])
      have hunf : slAux ('\r' :: y :: rest2) acc = acc.reverse :: slAux (y :: rest2) [] := by
        conv_lhs => rw [slAux.eq_def]
        simp [hy]
      rw [hunf] at hln
      rcases List.mem_cons.mp hln with h | h
      · subst h
        exact hacc c (by simpa using hc)
      · exact ih (by simp) ln h c hc
  | case5 rest acc ih =>
    intro hacc ln hln c hc
    simp only [slAux] at hln
    rcases List.mem_cons.mp hln with h | h
    · subst h
      exact hacc c (by simpa using hc)
    · exact ih (by simp) ln h c hc
  | case6 x rest acc h1 h2 h3 ih =>
    intro hacc ln hln c hc
    have hx1 : x ≠ '\r' := fun h => h2 h
    have hx2 : x ≠ '\n' := fun h => h3 h
    have hunf : slAux (x :: rest) acc = slAux rest (x :: acc) := by
      conv_lhs => rw [slAux.eq_def]
      rcases rest with _ | ⟨y, rest2⟩
      · simp [hx1, hx2]
      · simp [hx1, hx2]
    rw [hunf] at hln
    refine ih ?_ ln hln c hc
    intro d hd
    rcases List.mem_cons.mp hd with h | h
    · subst h
      simp [isNL, hx1, hx2]
    · exact hacc d h

theorem pySplitAux_no_occurrence (c : Char) (cs : Str) (s acc : Str)
    (hn : '\n' ∈ c :: cs) (hs : '\n' ∉ s) :
    pySplitAux c cs s.length s acc = [acc.reverse ++ s] := by
  induction s generalizing acc with
  | nil => simp [pySplitAux]
  | cons x xs ih =>
    have hcond : ¬ (x = c ∧ cs.isPrefixOf xs) := by
      rintro ⟨rfl, hpre⟩
      rcases List.mem_cons.mp hn with h | h
      · exact hs (by rw [← h]; exact List.mem_cons_self _ _)
      · have : '\n' ∈ xs :=
          ((List.isPrefixOf_iff_prefix.mp hpre).sublist.subset) h
        exact hs (List.mem_cons_of_mem _ this)
    have hs2 : '\n' ∉ xs := fun h => hs (List.mem_cons_of_mem _ h)
    simp only [List.length_cons, pySplitAux, hcond, if_false]
    rw [ih _ hs2]
    simp

theorem pySplit_append_newline (sep w : Str) (hw : '\n' ∉ w) :
    pySplit (sep ++ ['\n']) w = [w] := by
  cases sep with
  | nil => simpa using pySplitAux_no_occurrence '\n' [] w [] (by simp) hw
  | cons c cs =>
    simpa using pySplitAux_no_occurrence c (cs ++ ['\n']) w [] (by simp) hw

theorem dropWhile_prefix_self (p : Char → Bool) (t u : Str) (hpre : t <+: u)
    (hu : u.dropWhile p = u) : t.dropWhile p = t := by
  cases t with
  | nil => rfl
  | cons a t2 =>
    obtain ⟨r, rfl⟩ := hpre
    have hpa : p a = false := by
      by_contra hpa2
      simp only [Bool.not_eq_false] at hpa2
      rw [List.cons_append, List.dropWhile_cons, if_pos hpa2] at hu
      have hcon : (a :: (t2 ++ r)).length ≤ (t2 ++ r).length := by
        conv_lhs => rw [← hu]
        exact (List.dropWhile_sublist _).length_le
      simp at hcon
    rw [List.dropWhile_cons]
    simp [hpa]

theorem pyStrip_idem (s : Str) : pyStrip (pyStrip s) = pyStrip s := by
  unfold pyStrip
  have hA : ((s.dropWhile pyWs).rdropWhile pyWs).dropWhile pyWs
      = (s.dropWhile pyWs).rdropWhile pyWs :=
    dropWhile_prefix_self pyWs _ _ (List.rdropWhile_prefix _ _)
      (List.dropWhile_idempotent _ _)
  rw [hA, List.rdropWhile_idempotent]

theorem pyStrip_mem (c : Char) (s : Str) (h : c ∈ pyStrip s) : c ∈ s := by
  unfold pyStrip at h
  have h2 := (List.rdropWhile_prefix pyWs (s.dropWhile pyWs)).sublist.subset h
  exact (List.dropWhile_suffix pyWs).sublist.subset h2

/-- C7 (amended): with `subsplit_dangling` disabled on a multi-line value,
no in-line splitting happens — the separator is extended with a newline that
cannot occur inside a physical line — so each line free of comment-prefix
characters contributes its whole stripped content as a single element, or no
element at all when that content is empty. -/
theorem split_list_subsplit_disabled (value sep : Str) (cf : Str → V) (cp : Str)
    (hml : (pySplitlines (pyStrip value)).length > 1) :
    (split_list value sep cf false cp).data.length
      = (pySplitlines (pyStrip value)).length
  ∧ ∀ i ln, (pySplitlines (pyStrip value)).get? i = some ln →
      (∀ p ∈ pyReplace cp sep [], p ∉ pyStrip ln) →
      (split_list value sep cf false cp).data.get? i
        = some (Commented.mk
            (some (if (pyStrip ln).isEmpty then [] else [cf (pyStrip ln)]))
            none) := by
  constructor
  · simp [split_list]
  · intro i ln hln hnp
    have hlnmem : ln ∈ pySplitlines (pyStrip value) := List.get?_mem hln
    have hnonl : '\n' ∉ ln := by
      intro hmem
      have h2 := slAux_no_newline (pyStrip value) [] (by simp) ln hlnmem '\n' hmem
      simp [isNL] at h2
    have hnonl2 : '\n' ∉ pyStrip ln := fun h => hnonl (pyStrip_mem _ _ h)
    have hmap : (split_list value sep cf false cp).data.get? i
        = ((pySplitlines (pyStrip value)).get? i).map
            (fun v => split_comment v (listLineSplit (sep ++ ['\n']) cf)
              (pyReplace cp sep [])) := by
      simp [split_list, hml, List.get?_map]
    rw [hmap, hln]
    simp only [Option.map]
    rw [split_comment_plain_line _ _ _ hnp]
    have hsplit : listLineSplit (sep ++ ['\n']) cf (pyStrip ln)
        = if (pyStrip ln).isEmpty then [] else [cf (pyStrip (pyStrip ln))] := by
      unfold listLineSplit
      rw [pySplit_append_newline _ _ hnonl2]
      by_cases he : (pyStrip ln).isEmpty = true <;> simp [he]
    rw [hsplit]
    simp [pyStrip_idem]

theorem split_list_subsplit_disabled_witness :
    (split_list "a,b\nc,d".toList ",".toList noopV false CP).data.length
      = (pySplitlines (pyStrip "a,b\nc,d".toList)).length
    ∧ (split_list "a,b\nc,d".toList ",".toList noopV false CP).data.get? 0
      = some (Commented.mk
          (some (if (pyStrip "a,b".toList).isEmpty then []
            else [noopV (pyStrip "a,b".toList)]))
          none) :=
  ⟨(split_list_subsplit_disabled _ _ _ _ (by decide)).1,
   (split_list_subsplit_disabled _ _ _ _ (by decide)).2 0 "a,b".toList rfl
     (by decide)⟩

/-- C7 counterexample: in `"a,b\n\nc,d"` with `subsplit_dangling` disabled
the middle physical line is empty and contributes *zero* elements, so not
every physical line becomes exactly one whole element. -/
theorem split_list_blank_line_no_element :
    (split_list "a,b\n\nc,d".toList ",".toList noopV false CP).data.get? 1
      = some (Commented.mk (some []) none)
    ∧ (pySplitlines (pyStrip "a,b\n\nc,d".toList)).get? 1 = some []
    ∧ (split_list "a,b\n\nc,d".toList ",".toList noopV false CP).data.map
        (fun e => (e.value_or []).length) = [1, 0, 1] :=
  ⟨rfl, rfl, rfl⟩

/-!
## C6 — `CommentedKV` materialization: last-write-wins and comment placement
-/

theorem tblLookup_tblSet (es : List TElem) (k : Str) (v : V) (k2 : Str) :
    tblLookup (tblSet es k v) k2 = if k = k2 then some v else tblLookup es k2 := by
  induction es with
  | nil =>
    by_cases h : k = k2 <;> simp [tblSet, tblLookup, h]
  | cons e rest ih =>
    rcases e with ⟨c | ⟨k3, w⟩, cmt⟩
    · simpa [tblSet, tblLookup] using ih
    · by_cases h3 : k3 = k
      · subst h3
        by_cases h : k3 = k2 <;> simp [tblSet, tblLookup, h]
      · by_cases h : k3 = k2
        · subst h
          have hne : ¬ k = k3 := fun he => h3 he.symm
          simp [tblSet, tblLookup, h3, hne, ih]
        · simp [tblSet, tblLookup, h3, h, ih]

theorem tblLookup_tblAttach (es : List TElem) (k : Str) (c : Str) (k2 : Str) :
    tblLookup (tblAttach es k c) k2 = tblLookup es k2 := by
  induction es with
  | nil => rfl
  | cons e rest ih =>
    rcases e with ⟨cm | ⟨k3, w⟩, cmt⟩
    · simpa [tblAttach, tblLookup] using ih
    · by_cases h3 : k3 = k
      · subst h3
        simp [tblAttach, tblLookup]
      · simp [tblAttach, tblLookup, h3, ih]

theorem tblLookup_append_standalone (es : List TElem) (c : Option Str) (k2 : Str) :
    tblLookup (es ++ [(none, c)]) k2 = tblLookup es k2 := by
  induction es with
  | nil => rfl
  | cons e rest ih =>
    rcases e with ⟨cm | ⟨k3, w⟩, cmt⟩
    · simpa [tblLookup] using ih
    · by_cases h : k3 = k2 <;> simp [tblLookup, h, ih]

theorem kvFoldPairs_spec (ps : List (Str × V)) (acc : List TElem) :
    kvFoldPairs acc ps
      = (ps.foldl (fun es p => tblSet es p.1 p.2) acc, lastKeySet ps) := by
  unfold kvFoldPairs lastKeySet
  induction ps generalizing acc with
  | nil => rfl
  | cons p ps ih =>
    rcases ps with _ | ⟨q, qs⟩
    · rfl
    · have h2 := ih (tblSet acc p.1 p.2)
      -- the fold over `q :: qs` starting from the state after `p`
      simp only [List.foldl_cons] at h2 ⊢
      rw [h2]
      simp [List.getLast?_cons_cons]

theorem tblLookup_foldl (ps : List (Str × V)) (acc : List TElem) (k : Str) :
    tblLookup (ps.foldl (fun es p => tblSet es p.1 p.2) acc) k
      = (lastWrite ps k).or (tblLookup acc k) := by
  induction ps generalizing acc with
  | nil => simp [lastWrite]
  | cons p ps ih =>
    simp only [List.foldl_cons, lastWrite]
    rw [ih, tblLookup_tblSet]
    cases hlw : lastWrite ps k with
    | some w => simp [Option.or]
    | none =>
      by_cases h : p.1 = k <;> simp [Option.or, h]

theorem lastWrite_append (a b : List (Str × V)) (k : Str) :
    lastWrite (a ++ b) k = (lastWrite b k).or (lastWrite a k) := by
  induction a with
  | nil => simp [lastWrite]
  | cons p a2 ih =>
    have hstep : lastWrite (p :: (a2 ++ b)) k
        = match lastWrite (a2 ++ b) k with
          | some v => some v
          | none => if p.1 = k then some p.2 else none := rfl
    rw [List.cons_append, hstep, ih]
    cases hb : lastWrite b k <;> cases ha : lastWrite a2 k <;>
      simp [lastWrite, Option.or, hb, ha]

theorem kvLoop_lookup_true (entries : List (Commented (List (Str × V))))
    (acc : List TElem) (k : Str) :
    tblLookup (kvLoop true entries acc).1 k
      = (lastWrite (entries.flatMap (fun e => e.value_or [])) k).or
          (tblLookup acc k) := by
  induction entries generalizing acc with
  | nil => simp [kvLoop, lastWrite]
  | cons e rest ih =>
    rw [kvLoop, kvFoldPairs_spec]
    have hassoc : ∀ (x y z : Option V), (x.or y).or z = x.or (y.or z) := by
      intro x y z
      cases x <;> cases y <;> simp [Option.or]
    by_cases hc : e.has_comment = true
    · by_cases hk : ((lastKeySet (e.value_or [])).getD []).isEmpty = true
      · simp only [hc, hk, Bool.not_true, Bool.false_eq_true, if_false, if_true,
          ite_true, ite_false, not_true, not_false_iff]
        rw [ih, tblLookup_append_standalone, tblLookup_foldl]
        simp [List.flatMap_cons, lastWrite_append, hassoc]
      · simp only [hc, hk, Bool.not_true, Bool.false_eq_true, if_false, if_true,
          ite_true, ite_false, not_true, not_false_iff]
        rw [ih, tblLookup_tblAttach, tblLookup_foldl]
        simp [List.flatMap_cons, lastWrite_append, hassoc]
    · simp only [hc, Bool.not_false, if_true, ite_true, Bool.false_eq_true,
        not_false_iff, if_pos]
      rw [ih, tblLookup_foldl]
      simp [List.flatMap_cons, lastWrite_append, hassoc]

theorem kv_lookup_lastWrite (d : CommentedKV) (k : Str) :
    mapLookup (d.as_toml_obj.1) k
      = lastWrite (d.data.flatMap (fun e => e.value_or [])) k := by
  rcases d with ⟨data, cmt⟩
  by_cases hl : data.length > 1
  · simp only [CommentedKV.as_toml_obj, hl, decide_True]
    have := kvLoop_lookup_true data [] k
    rcases hkl : kvLoop true data [] with ⟨elems, early⟩
    rw [hkl] at this
    simp only [tblLookup] at this
    cases early <;> simpa [mapLookup] using this
  · rcases data with _ | ⟨e, rest⟩
    · simp [CommentedKV.as_toml_obj, kvLoop, mapLookup, tblLookup, lastWrite]
    · rcases rest with _ | ⟨f, rest2⟩
      · have hfold := tblLookup_foldl (e.value_or []) [] k
        simp only [tblLookup] at hfold
        rw [Option.or_none] at hfold
        by_cases hc : e.has_comment = true
        · simpa [CommentedKV.as_toml_obj, kvLoop, kvFoldPairs_spec, hc,
            mapLookup] using hfold
        · simpa [CommentedKV.as_toml_obj, kvLoop, kvFoldPairs_spec, hc,
            mapLookup] using hfold
      · simp at hl

/-- C6 (amended): in the node materialized by `split_kv_pairs`, lookups obey
last-write-wins over the flattened pair sequence; and in the multiline case
an entry's comment is attached to the item under the last key the entry set
when that key is *nonempty*, and is otherwise (no pair, or an empty last
key, which fails Python's `if k:` truthiness test) appended as a standalone
whole-line comment. -/
theorem split_kv_materialization (value key_sep : Str) (cf : Str → V)
    (pair_sep : Str) (ssd : Bool) (cp : Str) :
    (∀ k, mapLookup ((split_kv_pairs value key_sep cf pair_sep ssd cp).as_toml_obj.1) k
        = lastWrite ((split_kv_pairs value key_sep cf pair_sep ssd cp).data.flatMap
            (fun e => e.value_or [])) k)
  ∧ (∀ (e : Commented (List (Str × V))) (acc : List TElem),
      e.has_comment = true →
      (kvLoop true [e] acc).1 = claimKvCommentStep e acc) := by
  constructor
  · intro k
    exact kv_lookup_lastWrite _ k
  · intro e acc hc
    rw [kvLoop, kvFoldPairs_spec]
    unfold claimKvCommentStep
    cases hk : lastKeySet (e.value_or []) with
    | none =>
      simp [hc, hk, kvLoop]
    | some k =>
      by_cases he : k.isEmpty = true <;> simp [hc, hk, he, kvLoop]

theorem split_kv_materialization_witness :
    (kvLoop true [Commented.mk (some [("a".toList, V.vint 1)]) (some "c".toList)] []).1
      = claimKvCommentStep
          (Commented.mk (some [("a".toList, V.vint 1)]) (some "c".toList)) []
    ∧ mapLookup ((split_kv_pairs "a=1,a=2".toList "=".toList noopV ",".toList
          true CP).as_toml_obj.1) "a".toList
      = lastWrite ((split_kv_pairs "a=1,a=2".toList "=".toList noopV ",".toList
          true CP).data.flatMap (fun e => e.value_or [])) "a".toList :=
  ⟨(split_kv_materialization "".toList "=".toList noopV ",".toList true CP).2
      _ [] rfl,
   (split_kv_materialization "a=1,a=2".toList "=".toList noopV ",".toList
      true CP).1 "a".toList⟩

/-- C6 counterexample: in `"a=1\n=2 # c"` the second entry *does* set a key
(the empty key, from the pair `=2`), yet its comment is appended as a
standalone third element instead of being attached to the item under that
key, because the empty key fails Python's `if k:` truthiness test. -/
theorem split_kv_empty_key_comment_standalone :
    (vtblElems ((split_kv_pairs "a=1\n=2 # c".toList "=".toList noopV ",".toList
          true CP).as_toml_obj.1)).map Prod.snd
      = [none, none, some "c".toList]
    ∧ (vtblElems ((split_kv_pairs "a=1\n=2 # c".toList "=".toList noopV ",".toList
          true CP).as_toml_obj.1)).map (fun el => el.1.map Prod.fst)
      = [some "a".toList, some [], none]
    ∧ (vtblElems ((split_kv_pairs "a=1\n=2 # c".toList "=".toList noopV ",".toList
          true CP).as_toml_obj.1)).map Prod.snd
      ≠ [none, some "c".toList] :=
  ⟨rfl, rfl, fun h => absurd (congrArg List.length h) (by decide)⟩

/-!
## C10 — materialization mutates the representation's comment attribute
-/

/-- C10: on a single-entry representation whose entry carries a (nonempty)
comment, `as_toml_obj` writes that comment back into the representation's
own `comment` attribute as a side effect, and `_add_to_container` reads the
mutated attribute after materialization to re-attach the comment to the node
it assigns into the container. -/
theorem materialization_mutates_comment :
    (∀ (e : Commented (List V)) (cm : Str) (es : List (Str × V)) (fld : Str),
      e.comment = some cm → cm ≠ [] →
      ((CommentedList.mk [e] none).as_toml_obj.2.comment = some cm
        ∧ nodeComment ((mapLookup (_add_to_container (V.vmap es) fld
            (PVal.clist (CommentedList.mk [e] none))) fld).getD V.vnone)
          = some cm))
  ∧ (∀ (e : Commented (List (Str × V))) (cm : Str) (es : List (Str × V)) (fld : Str),
      e.comment = some cm → cm ≠ [] →
      ((CommentedKV.mk [e] none).as_toml_obj.2.comment = some cm
        ∧ nodeComment ((mapLookup (_add_to_container (V.vmap es) fld
            (PVal.ckv (CommentedKV.mk [e] none))) fld).getD V.vnone)
          = some cm)) := by
  constructor
  · intro e cm es fld hcm hne
    have hc : e.has_comment = true := by
      simp [Commented.has_comment, hcm, List.isEmpty_iff, hne]
    constructor
    · simp [CommentedList.as_toml_obj, clLoop, hc, hcm]
    · simp [_add_to_container, PVal.materialize, CommentedList.as_toml_obj,
        clLoop, hc, hcm, mapSet, mapLookup, lookupKey_setKey, setNodeComment,
        nodeComment]
  · intro e cm es fld hcm hne
    have hc : e.has_comment = true := by
      simp [Commented.has_comment, hcm, List.isEmpty_iff, hne]
    constructor
    · simp [CommentedKV.as_toml_obj, kvLoop, hc, hcm]
    · simp [_add_to_container, PVal.materialize, CommentedKV.as_toml_obj,
        kvLoop, hc, hcm, mapSet, mapLookup, lookupKey_setKey, setNodeComment,
        nodeComment]

theorem materialization_mutates_comment_witness :
    ((CommentedList.mk [Commented.mk (some [V.vint 1]) (some "c".toList)]
        none).as_toml_obj.2.comment = some "c".toList
      ∧ nodeComment ((mapLookup (_add_to_container (V.vmap []) "f".toList
          (PVal.clist (CommentedList.mk
            [Commented.mk (some [V.vint 1]) (some "c".toList)] none)))
          "f".toList).getD V.vnone) = some "c".toList)
    ∧ ((CommentedKV.mk [Commented.mk (some [("k".toList, V.vint 1)])
        (some "c".toList)] none).as_toml_obj.2.comment = some "c".toList
      ∧ nodeComment ((mapLookup (_add_to_container (V.vmap []) "f".toList
          (PVal.ckv (CommentedKV.mk
            [Commented.mk (some [("k".toList, V.vint 1)]) (some "c".toList)] none)))
          "f".toList).getD V.vnone) = some "c".toList) :=
  ⟨materialization_mutates_comment.1 _ _ [] "f".toList rfl (by decide),
   materialization_mutates_comment.2 _ _ [] "f".toList rfl (by decide)⟩

end Cfg2Toml
